import Mathlib

/-!
Verification of the intermediate-code generator (`code.cpp`).

The program tokenizes an arithmetic expression, reduces it to three-address
code with a two-stack operator-precedence algorithm (a shunting-yard variant),
and derives quadruple / triple / indirect-triple views of the instruction
sequence.  This file gives a shallow embedding of that program and proves the
specification claims about it.

Modelling choices:
* `std::string` becomes `String`, scanned as its `List Char`.
* The tokenizer's inner maximal-munch loops become `takeWhile`/`dropWhile`;
  the outer `for` loop consumes at least one character per step, so it is
  expressed structurally with a fuel initialised to the character count
  (the fuel-zero branch is unreachable for that initialisation).
* The unchecked `stack::top`/`stack::pop` calls of `processOperator` are an
  unchecked precondition in C++ (undefined behaviour on an empty stack); the
  embedding returns `none` exactly when such an unchecked pop would fire.
* The operator stack is threaded through the reduction loops as an explicit
  list argument (head = top of stack); `processOperator` receives the popped
  top as its argument.
* `std::to_string` on the temp counter is modelled by `natRepr` below.
-/

/-- Decimal digit to character, as produced by `std::to_string`. -/
def digitChar (d : Nat) : Char :=
  match d with
  | 0 => '0' | 1 => '1' | 2 => '2' | 3 => '3' | 4 => '4'
  | 5 => '5' | 6 => '6' | 7 => '7' | 8 => '8' | _ => '9'

/-- Base-10 digits of `n`, least significant first; fuel-structural
(`fuel ≥ n` suffices since `n / 10 < n` for `n > 0`). -/
def digitsRevAux : Nat → Nat → List Nat
  | 0, _ => []
  | fuel + 1, n => if n = 0 then [] else n % 10 :: digitsRevAux fuel (n / 10)

def digitsRev (n : Nat) : List Nat := digitsRevAux n n

/-- Decimal rendering of a natural number, modelling `std::to_string`. -/
def natRepr (n : Nat) : String :=
  if n = 0 then "0" else String.mk (((digitsRev n).reverse).map digitChar)

/-- Reconstruct a number from its least-significant-first digit list. -/
def undigits : List Nat → Nat
  | [] => 0
  | d :: ds => d + 10 * undigits ds

/-- `struct Token` of `code.cpp`: a classified lexeme. -/
inductive TokenType where
  | NUMBER | OPERATOR | VARIABLE | PARENTHESIS
  deriving DecidableEq

structure Token where
  type : TokenType
  value : String
  deriving DecidableEq

/-- `struct Instruction` of `code.cpp`: one three-address-code step. -/
structure Instruction where
  op : String
  arg1 : String
  arg2 : String
  result : String
  deriving DecidableEq

/-- `Instruction::toString`: three-address-code text. -/
def Instruction.toString (i : Instruction) : String :=
  if i.op = "=" then i.result ++ " = " ++ i.arg1
  else i.result ++ " = " ++ i.arg1 ++ " " ++ i.op ++ " " ++ i.arg2

/-- `Instruction::toQuadruple`: quadruple text (blank `arg2` for `=`). -/
def Instruction.toQuadruple (i : Instruction) : String :=
  "(" ++ i.op ++ ", " ++ i.arg1 ++ ", " ++ (if i.op = "=" then " " else i.arg2) ++
    ", " ++ i.result ++ ")"

/-- C `isspace` (default locale). -/
def isSpaceC (c : Char) : Bool :=
  c = ' ' || c = '\t' || c = '\n' || c = '\x0b' || c = '\x0c' || c = '\r'

/-- Characters continuing a NUMBER token: digits and dots. -/
def numChar (c : Char) : Bool := c.isDigit || c = '.'

/-- Characters continuing a VARIABLE token: alphanumerics and underscore. -/
def identChar (c : Char) : Bool := c.isAlphanum || c = '_'

/-- `strchr("+-*/%^()", c)`; `strchr` also matches the terminating NUL. -/
def opParenChar (c : Char) : Bool :=
  (['+', '-', '*', '/', '%', '^', '(', ')', '\x00'] : List Char).contains c

/-- Step 1 of `processExpression`: the tokenizer loop.  Each step consumes at
least one character and spends exactly one unit of fuel, so with
`fuel = input length` the fuel-zero branch never fires. -/
def tokenizeAux : Nat → List Char → List Token
  | 0, _ => []
  | _, [] => []
  | fuel + 1, c :: cs =>
    if isSpaceC c then tokenizeAux fuel cs
    else if c.isDigit then
      Token.mk TokenType.NUMBER (String.mk (c :: cs.takeWhile numChar)) ::
        tokenizeAux fuel (cs.dropWhile numChar)
    else if c.isAlpha then
      Token.mk TokenType.VARIABLE (String.mk (c :: cs.takeWhile identChar)) ::
        tokenizeAux fuel (cs.dropWhile identChar)
    else if opParenChar c then
      Token.mk (if c = '(' ∨ c = ')' then TokenType.PARENTHESIS else TokenType.OPERATOR)
          (String.mk [c]) ::
        tokenizeAux fuel cs
    else tokenizeAux fuel cs

def tokenize (l : List Char) : List Token := tokenizeAux l.length l

/-- The reducer's mutable locals other than the operator stack:
`instructions`, `operands`, `tempCount`. -/
structure RState where
  instructions : List Instruction
  operands : List String
  tempCount : Nat
  deriving DecidableEq

/-- The `getPrecedence` lambda. -/
def getPrecedence (op : String) : Nat :=
  if op = "+" ∨ op = "-" then 1
  else if op = "*" ∨ op = "/" ∨ op = "%" then 2
  else if op = "^" then 3
  else 0

/-- The `processOperator` lambda: pop the operator-stack top (passed here as
`opTok` by the loops below), pop `arg2` then `arg1`, emit one instruction,
push the fresh temp.  `none` models the unchecked `top()` on an operand
stack with fewer than two entries (undefined behaviour in the C++). -/
def processOperator (opTok : Token) (s : RState) : Option RState :=
  match s.operands with
  | arg2 :: arg1 :: rest =>
    let tempVar := "t" ++ natRepr s.tempCount
    some (RState.mk (s.instructions ++ [Instruction.mk opTok.value arg1 arg2 tempVar])
      (tempVar :: rest) (s.tempCount + 1))
  | _ => none

/-- The precedence/associativity condition of the operator-token `while` loop:
`top` is an operator and (left-associative: its precedence is `≥` the incoming
one / right-associative: strictly `>`). -/
def shouldPop (isRightAssoc : Bool) (top : Token) (v : String) : Bool :=
  decide (top.type = TokenType.OPERATOR ∧
    ((isRightAssoc = false ∧ getPrecedence v ≤ getPrecedence top.value) ∨
     (isRightAssoc = true ∧ getPrecedence v < getPrecedence top.value)))

/-- The `while` loop run when an operator token arrives. -/
def popWhilePrec (v : String) (isRightAssoc : Bool) :
    List Token → RState → Option (List Token × RState)
  | [], s => some ([], s)
  | top :: rest, s =>
    if shouldPop isRightAssoc top v then
      match processOperator top s with
      | some s1 => popWhilePrec v isRightAssoc rest s1
      | none => none
    else some (top :: rest, s)

/-- The `while` loop run when a close parenthesis arrives: reduce until the
top of the operator stack is an open parenthesis (or the stack empties). -/
def popUntilOpen : List Token → RState → Option (List Token × RState)
  | [], s => some ([], s)
  | top :: rest, s =>
    if top.value = "(" then some (top :: rest, s)
    else
      match processOperator top s with
      | some s1 => popUntilOpen rest s1
      | none => none

/-- Step 4 of `processExpression`: reduce all remaining operator-stack
entries, whatever they are. -/
def popAll : List Token → RState → Option RState
  | [], s => some s
  | top :: rest, s =>
    match processOperator top s with
    | some s1 => popAll rest s1
    | none => none

/-- Step 3 of `processExpression`: the token loop. -/
def runTokens : List Token → List Token → RState → Option (List Token × RState)
  | [], operators, s => some (operators, s)
  | t :: ts, operators, s =>
    if t.type = TokenType.NUMBER ∨ t.type = TokenType.VARIABLE then
      runTokens ts operators (RState.mk s.instructions (t.value :: s.operands) s.tempCount)
    else if t.type = TokenType.OPERATOR then
      match popWhilePrec t.value (t.value == "^") operators s with
      | some p => runTokens ts (t :: p.1) p.2
      | none => none
    else if t.value = "(" then
      runTokens ts (t :: operators) s
    else if t.value = ")" then
      match popUntilOpen operators s with
      | some p => runTokens ts p.1.tail p.2
      | none => none
    else runTokens ts operators s

/-- The final assignment: if the operand stack is non-empty, append
`Instruction("=", top, "", resultVar)`. -/
def finalAssign (resultVar : String) (s : RState) : List Instruction :=
  match s.operands with
  | [] => s.instructions
  | top :: _ => s.instructions ++ [Instruction.mk "=" top "" resultVar]

def initState : RState := RState.mk [] [] 1

/-- `processExpression` of `code.cpp`: tokenize, run the token loop from empty
stacks with the temp counter at 1, reduce the remaining operators, append the
final assignment.  `none` models an execution that hits an unchecked pop of
an insufficiently filled stack. -/
def processExpression (expression resultVar : String) : Option (List Instruction) :=
  (runTokens (tokenize expression.data) [] initState).bind
    (fun p => (popAll p.1 p.2).map (finalAssign resultVar))

/-- Rows printed for the TAC view (1-based index prefix). -/
def tacLines (instructions : List Instruction) : List String :=
  instructions.enum.map (fun p => natRepr (p.1 + 1) ++ ": " ++ p.2.toString)

/-- Rows printed for the quadruple view (1-based index prefix). -/
def quadrupleLines (instructions : List Instruction) : List String :=
  instructions.enum.map (fun p => natRepr (p.1 + 1) ++ ": " ++ p.2.toQuadruple)

/-- Rows printed by `printTriples` (0-based index). -/
def tripleLines (instructions : List Instruction) : List String :=
  instructions.enum.map (fun p =>
    natRepr p.1 ++ ": (" ++ p.2.op ++ ", " ++ p.2.arg1 ++ ", " ++ p.2.arg2 ++ ")")

/-- Pointer-table rows of `printIndirectTriples`: the identity mapping. -/
def pointerTableLines (instructions : List Instruction) : List String :=
  (List.range instructions.length).map (fun i => natRepr i ++ " -> " ++ natRepr i)

/-! Injectivity of the decimal rendering, via the digit round trip. -/

theorem digitsRevAux_undigits : ∀ fuel n, n ≤ fuel → undigits (digitsRevAux fuel n) = n := by
  intro fuel
  induction fuel with
  | zero =>
    intro n hn
    have : n = 0 := Nat.le_zero.mp hn
    subst this
    rfl
  | succ fuel ih =>
    intro n hn
    by_cases h0 : n = 0
    · subst h0; simp [digitsRevAux, undigits]
    · have hdiv : n / 10 ≤ fuel := by
        have : n / 10 < n := Nat.div_lt_self (Nat.pos_of_ne_zero h0) (by omega)
        omega
      simp only [digitsRevAux, h0, if_false, undigits, ih _ hdiv]
      omega

theorem undigits_digitsRev (n : Nat) : undigits (digitsRev n) = n :=
  digitsRevAux_undigits n n le_rfl

theorem digitsRevAux_lt_ten : ∀ fuel n, ∀ d ∈ digitsRevAux fuel n, d < 10 := by
  intro fuel
  induction fuel with
  | zero => intro n d hd; simp [digitsRevAux] at hd
  | succ fuel ih =>
    intro n d hd
    by_cases h0 : n = 0
    · subst h0; simp [digitsRevAux] at hd
    · simp only [digitsRevAux, h0, if_false, List.mem_cons] at hd
      rcases hd with h | h
      · omega
      · exact ih _ _ h

theorem digitChar_inj_lt : ∀ d, d < 10 → ∀ e, e < 10 → digitChar d = digitChar e → d = e := by
  decide

theorem map_digitChar_inj : ∀ l1 l2 : List Nat, (∀ d ∈ l1, d < 10) → (∀ d ∈ l2, d < 10) →
    l1.map digitChar = l2.map digitChar → l1 = l2 := by
  intro l1
  induction l1 with
  | nil =>
    intro l2 _ _ h
    cases l2 with
    | nil => rfl
    | cons b l2 => simp at h
  | cons a l1 ih =>
    intro l2 h1 h2 h
    cases l2 with
    | nil => simp at h
    | cons b l2 =>
      simp only [List.map_cons, List.cons.injEq] at h
      have ha : a = b :=
        digitChar_inj_lt a (h1 a (by simp)) b (h2 b (by simp)) h.1
      have hl : l1 = l2 :=
        ih l2 (fun d hd => h1 d (by simp [hd])) (fun d hd => h2 d (by simp [hd])) h.2
      rw [ha, hl]

theorem natRepr_injective : ∀ m n : Nat, natRepr m = natRepr n → m = n := by
  intro m n h
  by_cases hm : m = 0 <;> by_cases hn : n = 0
  · omega
  · exfalso
    simp only [natRepr, hm, hn, if_true, if_false] at h
    have hd : (['0'] : List Char) = ((digitsRev n).reverse).map digitChar :=
      congrArg String.data h
    have hone : (digitsRev n).reverse.length = 1 := by
      have := congrArg List.length hd
      simpa using this.symm
    obtain ⟨d, hdd⟩ := List.length_eq_one.mp hone
    rw [hdd] at hd
    simp only [List.map_cons, List.map_nil, List.cons.injEq] at hd
    have hdrev : digitsRev n = [d] := by
      have := congrArg List.reverse hdd
      simpa using this
    have hd10 : d < 10 := digitsRevAux_lt_ten n n d (by rw [show digitsRevAux n n = digitsRev n from rfl, hdrev]; simp)
    have : d = 0 := by
      have h0 : digitChar d = '0' := hd.1.symm
      exact digitChar_inj_lt d hd10 0 (by omega) (by simpa using h0)
    have : n = 0 := by
      have := undigits_digitsRev n
      rw [hdrev, this.symm] at *
      simp [undigits, hdrev] at *
      omega
    exact absurd this hn
  · exfalso
    simp only [natRepr, hm, hn, if_true, if_false] at h
    have hd : ((digitsRev m).reverse).map digitChar = (['0'] : List Char) :=
      congrArg String.data h
    have hone : (digitsRev m).reverse.length = 1 := by
      have := congrArg List.length hd
      simpa using this
    obtain ⟨d, hdd⟩ := List.length_eq_one.mp hone
    rw [hdd] at hd
    simp only [List.map_cons, List.map_nil, List.cons.injEq] at hd
    have hdrev : digitsRev m = [d] := by
      have := congrArg List.reverse hdd
      simpa using this
    have hd10 : d < 10 := digitsRevAux_lt_ten m m d (by rw [show digitsRevAux m m = digitsRev m from rfl, hdrev]; simp)
    have : d = 0 := digitChar_inj_lt d hd10 0 (by omega) (by simpa using hd.1)
    have : m = 0 := by
      have hu := undigits_digitsRev m
      rw [hdrev] at hu
      simp [undigits] at hu
      omega
    exact absurd this hm
  · simp only [natRepr, hm, hn, if_false] at h
    have hd : ((digitsRev m).reverse).map digitChar = ((digitsRev n).reverse).map digitChar :=
      congrArg String.data h
    have hrev : (digitsRev m).reverse = (digitsRev n).reverse :=
      map_digitChar_inj _ _
        (fun d hdm => digitsRevAux_lt_ten m m d (by simpa using hdm))
        (fun d hdn => digitsRevAux_lt_ten n n d (by simpa using hdn)) hd
    have hdig : digitsRev m = digitsRev n := List.reverse_injective hrev
    have := undigits_digitsRev m
    rw [hdig, undigits_digitsRev n] at this
    omega

/-- Distinct temp counters give distinct temp names. -/
theorem tname_inj (m n : Nat) (h : "t" ++ natRepr m = "t" ++ natRepr n) : m = n := by
  apply natRepr_injective
  have hd := congrArg String.data h
  simp only [String.data_append] at hd
  have : (natRepr m).data = (natRepr n).data := by
    simpa using hd
  exact congrArg String.mk this

/-! Shape of a successful `processOperator` step. -/

theorem processOperator_some_eq {opTok : Token} {s s' : RState}
    (h : processOperator opTok s = some s') :
    ∃ arg2 arg1 rest, s.operands = arg2 :: arg1 :: rest ∧
      s' = RState.mk
        (s.instructions ++ [Instruction.mk opTok.value arg1 arg2 ("t" ++ natRepr s.tempCount)])
        (("t" ++ natRepr s.tempCount) :: rest) (s.tempCount + 1) := by
  rcases hs : s.operands with _ | ⟨a2, _ | ⟨a1, rest⟩⟩
  · simp only [processOperator, hs] at h
    exact Option.noConfusion h
  · simp only [processOperator, hs] at h
    exact Option.noConfusion h
  · simp only [processOperator, hs, Option.some.injEq] at h
    exact ⟨a2, a1, rest, rfl, h.symm⟩

theorem processOperator_none {opTok : Token} {s : RState}
    (h : s.operands.length < 2) : processOperator opTok s = none := by
  rcases hs : s.operands with _ | ⟨a2, _ | ⟨a1, rest⟩⟩
  · simp [processOperator, hs]
  · simp [processOperator, hs]
  · exfalso
    rw [hs] at h
    simp only [List.length_cons] at h
    omega

theorem opt_some_bind {α β : Type} (a : α) (f : α → Option β) : (some a).bind f = f a := rfl

theorem opt_map_some {α β : Type} (f : α → β) (a : α) : (some a).map f = some (f a) := rfl

/-- Invariant of the reducer state: the temp counter is one more than the
number of emitted instructions, the `i`-th emitted instruction (0-based) has
result `t(i+1)`, and emitted instructions imply a non-empty operand stack. -/
def InstrInv (s : RState) : Prop :=
  s.tempCount = s.instructions.length + 1 ∧
  (∀ i, i < s.instructions.length →
    s.instructions[i]?.map Instruction.result = some ("t" ++ natRepr (i + 1))) ∧
  (s.instructions ≠ [] → s.operands ≠ [])

theorem initState_inv : InstrInv initState := by
  refine ⟨rfl, ?_, ?_⟩
  · intro i hi
    exact absurd hi (by simp [initState])
  · intro hne
    exact absurd rfl hne

theorem processOperator_inv {opTok : Token} {s s' : RState}
    (h : processOperator opTok s = some s') (hi : InstrInv s) : InstrInv s' := by
  obtain ⟨arg2, arg1, rest, hops, hs'⟩ := processOperator_some_eq h
  obtain ⟨hc, hres, _⟩ := hi
  subst hs'
  refine ⟨by simp [hc], ?_, by simp⟩
  intro i hlen
  simp only [List.length_append, List.length_cons, List.length_nil] at hlen
  by_cases hlt : i < s.instructions.length
  · rw [List.getElem?_append_left hlt]
    exact hres i hlt
  · have hieq : i = s.instructions.length := by omega
    subst hieq
    rw [List.getElem?_concat_length]
    simp [hc]

theorem popWhilePrec_inv (v : String) (ra : Bool) :
    ∀ ops s p, popWhilePrec v ra ops s = some p → InstrInv s → InstrInv p.2 := by
  intro ops
  induction ops with
  | nil =>
    intro s p h hi
    simp only [popWhilePrec] at h
    cases h
    exact hi
  | cons top rest ih =>
    intro s p h hi
    simp only [popWhilePrec] at h
    by_cases hc : shouldPop ra top v = true
    · rw [if_pos hc] at h
      cases hp : processOperator top s with
      | none => rw [hp] at h; exact Option.noConfusion h
      | some s1 => rw [hp] at h; exact ih s1 p h (processOperator_inv hp hi)
    · rw [if_neg hc] at h
      cases h
      exact hi

theorem popUntilOpen_inv :
    ∀ ops s p, popUntilOpen ops s = some p → InstrInv s → InstrInv p.2 := by
  intro ops
  induction ops with
  | nil =>
    intro s p h hi
    simp only [popUntilOpen] at h
    cases h
    exact hi
  | cons top rest ih =>
    intro s p h hi
    simp only [popUntilOpen] at h
    by_cases hc : top.value = "("
    · rw [if_pos hc] at h
      cases h
      exact hi
    · rw [if_neg hc] at h
      cases hp : processOperator top s with
      | none => rw [hp] at h; exact Option.noConfusion h
      | some s1 => rw [hp] at h; exact ih s1 p h (processOperator_inv hp hi)

theorem popAll_inv :
    ∀ ops s s1, popAll ops s = some s1 → InstrInv s → InstrInv s1 := by
  intro ops
  induction ops with
  | nil =>
    intro s s1 h hi
    simp only [popAll] at h
    cases h
    exact hi
  | cons top rest ih =>
    intro s s1 h hi
    simp only [popAll] at h
    cases hp : processOperator top s with
    | none => rw [hp] at h; exact Option.noConfusion h
    | some s2 => rw [hp] at h; exact ih s2 s1 h (processOperator_inv hp hi)

theorem runTokens_inv :
    ∀ ts ops s p, runTokens ts ops s = some p → InstrInv s → InstrInv p.2 := by
  intro ts
  induction ts with
  | nil =>
    intro ops s p h hi
    simp only [runTokens] at h
    cases h
    exact hi
  | cons t ts ih =>
    intro ops s p h hi
    simp only [runTokens] at h
    by_cases h1 : t.type = TokenType.NUMBER ∨ t.type = TokenType.VARIABLE
    · rw [if_pos h1] at h
      refine ih _ _ _ h ?_
      obtain ⟨hc, hres, _⟩ := hi
      exact ⟨hc, hres, fun _ => by simp⟩
    · rw [if_neg h1] at h
      by_cases h2 : t.type = TokenType.OPERATOR
      · rw [if_pos h2] at h
        cases hp : popWhilePrec t.value (t.value == "^") ops s with
        | none => rw [hp] at h; exact Option.noConfusion h
        | some q => rw [hp] at h; exact ih _ _ _ h (popWhilePrec_inv _ _ _ _ _ hp hi)
      · rw [if_neg h2] at h
        by_cases h3 : t.value = "("
        · rw [if_pos h3] at h
          exact ih _ _ _ h hi
        · rw [if_neg h3] at h
          by_cases h4 : t.value = ")"
          · rw [if_pos h4] at h
            cases hp : popUntilOpen ops s with
            | none => rw [hp] at h; exact Option.noConfusion h
            | some q => rw [hp] at h; exact ih _ _ _ h (popUntilOpen_inv _ _ _ hp hi)
          · rw [if_neg h4] at h
            exact ih _ _ _ h hi

/-- Every successful run decomposes into the token loop, the final
pop-and-reduce loop, and the final assignment, with the state invariant. -/
theorem processExpression_run (e r : String) (instrs : List Instruction)
    (h : processExpression e r = some instrs) :
    ∃ p s1, runTokens (tokenize e.data) [] initState = some p ∧
      popAll p.1 p.2 = some s1 ∧ InstrInv s1 ∧ instrs = finalAssign r s1 := by
  unfold processExpression at h
  cases hr : runTokens (tokenize e.data) [] initState with
  | none => rw [hr] at h; exact Option.noConfusion h
  | some p =>
    rw [hr, opt_some_bind] at h
    cases ha : popAll p.1 p.2 with
    | none => rw [ha] at h; exact Option.noConfusion h
    | some s1 =>
      rw [ha, opt_map_some, Option.some.injEq] at h
      exact ⟨p, s1, rfl, ha, popAll_inv _ _ _ ha (runTokens_inv _ _ _ _ hr initState_inv),
        h.symm⟩

/--
C3 (amended): for every input expression and result variable on which the
reducer completes and emits at least one instruction, the last instruction is
the assignment `Instruction("=", top, "", resultVar)` where `top` is the top
of the operand stack after the end-of-input reduction (the final computed
temporary or operand), its `arg2` is empty and its `result` is the
caller-supplied result-variable name.  (The original claim said this for every
non-empty expression *string*; `c3_counterexample` shows a non-empty
whitespace-only string emits no instruction at all.)
-/
theorem c3_amended (e r : String) (instrs : List Instruction)
    (h : processExpression e r = some instrs) (hne : instrs ≠ []) :
    ∃ p s1 top rest,
      runTokens (tokenize e.data) [] initState = some p ∧
      popAll p.1 p.2 = some s1 ∧
      s1.operands = top :: rest ∧
      instrs = s1.instructions ++ [Instruction.mk "=" top "" r] ∧
      instrs.getLast? = some (Instruction.mk "=" top "" r) := by
  obtain ⟨p, s1, hr, ha, hinv, hfin⟩ := processExpression_run e r instrs h
  rcases hops : s1.operands with _ | ⟨top, rest⟩
  · exfalso
    simp only [finalAssign, hops] at hfin
    by_cases hil : s1.instructions = []
    · rw [hil] at hfin
      exact hne hfin
    · exact hinv.2.2 hil hops
  · simp only [finalAssign, hops] at hfin
    exact ⟨p, s1, top, rest, hr, ha, hops, hfin, by rw [hfin]; exact List.getLast?_concat _⟩

/-- Witness for `c3_amended` on the run of `"a + b"`. -/
theorem c3_amended_witness :
    ∃ p s1 top rest,
      runTokens (tokenize "a + b".data) [] initState = some p ∧
      popAll p.1 p.2 = some s1 ∧
      s1.operands = top :: rest ∧
      [Instruction.mk "+" "a" "b" "t1", Instruction.mk "=" "t1" "" "x"] =
        s1.instructions ++ [Instruction.mk "=" top "" "x"] ∧
      ([Instruction.mk "+" "a" "b" "t1",
        Instruction.mk "=" "t1" "" "x"] : List Instruction).getLast? =
        some (Instruction.mk "=" top "" "x") :=
  c3_amended "a + b" "x" [Instruction.mk "+" "a" "b" "t1", Instruction.mk "=" "t1" "" "x"]
    (by decide) (by decide)

/--
C7: within a single reduction call the generated temporary names are exactly
`t1, t2, …` in emission order (strictly increasing, starting at 1 — the
counter is a local initialised to 1 at the start of each call, so there is no
cross-call state), and they never repeat.
-/
theorem c7_temp_names (e r : String) (instrs : List Instruction)
    (h : processExpression e r = some instrs) :
    instrs.dropLast.map Instruction.result =
      (List.range instrs.dropLast.length).map (fun i => "t" ++ natRepr (i + 1)) ∧
    List.Pairwise (fun a b => a ≠ b) (instrs.dropLast.map Instruction.result) := by
  obtain ⟨p, s1, hr, ha, hinv, hfin⟩ := processExpression_run e r instrs h
  have hdrop : instrs.dropLast = s1.instructions := by
    rcases hops : s1.operands with _ | ⟨top, rest⟩
    · simp only [finalAssign, hops] at hfin
      by_cases hil : s1.instructions = []
      · rw [hfin, hil]
        rfl
      · exact absurd hops (hinv.2.2 hil)
    · simp only [finalAssign, hops] at hfin
      rw [hfin]
      exact List.dropLast_concat
  have hmap : s1.instructions.map Instruction.result =
      (List.range s1.instructions.length).map (fun i => "t" ++ natRepr (i + 1)) := by
    apply List.ext_getElem?
    intro i
    by_cases hlen : i < s1.instructions.length
    · rw [List.getElem?_map, List.getElem?_map, List.getElem?_range hlen]
      simpa using hinv.2.1 i hlen
    · rw [List.getElem?_eq_none (by simpa using Nat.le_of_not_lt hlen),
        List.getElem?_eq_none (by simpa using Nat.le_of_not_lt hlen)]
  rw [hdrop]
  refine ⟨by rw [hmap], ?_⟩
  rw [hmap, List.pairwise_map]
  refine (List.pairwise_lt_range _).imp ?_
  intro a b hab hEq
  have := tname_inj _ _ hEq
  omega

/-- Witness for `c7_temp_names` on the run of `"a + b * c"`. -/
theorem c7_temp_names_witness :
    ([Instruction.mk "*" "b" "c" "t1", Instruction.mk "+" "a" "t1" "t2",
        Instruction.mk "=" "t2" "" "x"] : List Instruction).dropLast.map Instruction.result =
      (List.range ([Instruction.mk "*" "b" "c" "t1", Instruction.mk "+" "a" "t1" "t2",
        Instruction.mk "=" "t2" "" "x"] : List Instruction).dropLast.length).map
        (fun i => "t" ++ natRepr (i + 1)) ∧
    List.Pairwise (fun a b => a ≠ b)
      (([Instruction.mk "*" "b" "c" "t1", Instruction.mk "+" "a" "t1" "t2",
        Instruction.mk "=" "t2" "" "x"] : List Instruction).dropLast.map Instruction.result) :=
  c7_temp_names "a + b * c" "x"
    [Instruction.mk "*" "b" "c" "t1", Instruction.mk "+" "a" "t1" "t2",
      Instruction.mk "=" "t2" "" "x"] (by decide)

/--
C10: the `k`-th instruction (1-based) emitted by pop-and-reduce within one
call has result exactly `t` followed by the decimal numeral `k`: every
instruction strictly preceding the final assignment has result `t(i+1)` where
`i` is its 0-based position in the output sequence.
-/
theorem c10_positional_temp (e r : String) (instrs : List Instruction)
    (h : processExpression e r = some instrs) (i : Nat) (hi : i + 1 < instrs.length) :
    instrs[i]?.map Instruction.result = some ("t" ++ natRepr (i + 1)) := by
  obtain ⟨p, s1, hr, ha, hinv, hfin⟩ := processExpression_run e r instrs h
  rcases hops : s1.operands with _ | ⟨top, rest⟩
  · exfalso
    simp only [finalAssign, hops] at hfin
    by_cases hil : s1.instructions = []
    · rw [hfin, hil] at hi
      simp at hi
    · exact hinv.2.2 hil hops
  · simp only [finalAssign, hops] at hfin
    subst hfin
    have hlen : i < s1.instructions.length := by
      simp only [List.length_append, List.length_cons, List.length_nil] at hi
      omega
    rw [List.getElem?_append_left hlen]
    exact hinv.2.1 i hlen

/-- Witness for `c10_positional_temp` on the run of `"a + b * c"`. -/
theorem c10_positional_temp_witness :
    ([Instruction.mk "*" "b" "c" "t1", Instruction.mk "+" "a" "t1" "t2",
        Instruction.mk "=" "t2" "" "x"] : List Instruction)[0]?.map Instruction.result =
      some ("t" ++ natRepr (0 + 1)) :=
  c10_positional_temp "a + b * c" "x"
    [Instruction.mk "*" "b" "c" "t1", Instruction.mk "+" "a" "t1" "t2",
      Instruction.mk "=" "t2" "" "x"] (by decide) 0 (by decide)

/--
C1 counterexample: on the input `"a ( b"` (an unmatched open parenthesis left
on the operator stack at end of input), the end-of-input pop-and-reduce loop
does reduce the `(` token, emitting an `Instruction` whose operator is `"("`.
This contradicts the claim that unmatched open parentheses are never reduced
and that no emitted instruction has operator `"("`.
-/
theorem c1_counterexample :
    processExpression "a ( b" "x" =
      some [Instruction.mk "(" "a" "b" "t1", Instruction.mk "=" "t1" "" "x"] ∧
    ((processExpression "a ( b" "x").getD []).any (fun i => i.op == "(") = true := by
  exact ⟨by decide, by decide⟩

/--
C1 (amended): after all tokens are consumed, the end-of-input loop
pops-and-reduces **every** remaining operator-stack entry, including unmatched
open parentheses: whenever the loop completes, each remaining stack token
(`"("` tokens included) contributes exactly one instruction whose operator is
that token's text, so an emitted instruction can have operator `"("`.
-/
theorem c1_amended (ops : List Token) (s s1 : RState) (h : popAll ops s = some s1) :
    s1.instructions.map Instruction.op =
      s.instructions.map Instruction.op ++ ops.map Token.value ∧
    s1.instructions.length = s.instructions.length + ops.length := by
  induction ops generalizing s with
  | nil =>
    simp only [popAll] at h
    cases h
    simp
  | cons top rest ih =>
    simp only [popAll] at h
    cases hp : processOperator top s with
    | none => rw [hp] at h; cases h
    | some s2 =>
      rw [hp] at h
      obtain ⟨arg2, arg1, r, _, hs2⟩ := processOperator_some_eq hp
      obtain ⟨h1, h2⟩ := ih s2 h
      subst hs2
      constructor
      · simp only [h1]; simp
      · simp only [h2]; simp; omega

/-- Witness for `c1_amended` at the end state of the `"a ( b"` run. -/
theorem c1_amended_witness :
    (RState.mk [Instruction.mk "(" "a" "b" "t1"] ["t1"] 2).instructions.map Instruction.op =
      (RState.mk [] ["b", "a"] 1).instructions.map Instruction.op ++
        [Token.mk TokenType.PARENTHESIS "("].map Token.value ∧
    (RState.mk [Instruction.mk "(" "a" "b" "t1"] ["t1"] 2).instructions.length =
      (RState.mk [] ["b", "a"] 1).instructions.length +
        [Token.mk TokenType.PARENTHESIS "("].length :=
  c1_amended [Token.mk TokenType.PARENTHESIS "("] (RState.mk [] ["b", "a"] 1)
    (RState.mk [Instruction.mk "(" "a" "b" "t1"] ["t1"] 2) (by decide)

/--
C3 counterexample: the whitespace-only input `" "` is a non-empty expression
string, yet the pipeline emits zero instructions, so there is no last
instruction at all (in particular none with operator `"="`).
-/
theorem c3_counterexample :
    (" " : String) ≠ "" ∧ processExpression " " "x" = some [] ∧
    ((processExpression " " "x").getD []).getLast? = none := by
  exact ⟨by decide, by decide, by decide⟩

/-! Well-formed infix token sequences and absence of operand underflow. -/

/-- A binary-operator token: OPERATOR type with one of the six operator
texts produced by the tokenizer. -/
def isBinOpTok (t : Token) : Bool :=
  decide (t.type = TokenType.OPERATOR ∧
    (t.value = "+" ∨ t.value = "-" ∨ t.value = "*" ∨ t.value = "/" ∨
     t.value = "%" ∨ t.value = "^"))

/-- The standard expect-atom automaton with a parenthesis-depth counter:
accepts exactly the well-formed infix expressions over atoms, binary
operators and balanced parentheses. -/
def wfAux : List Token → Bool → Nat → Bool
  | [], expectAtom, depth => !expectAtom && decide (depth = 0)
  | t :: ts, expectAtom, depth =>
    if t.type = TokenType.NUMBER ∨ t.type = TokenType.VARIABLE then
      expectAtom && wfAux ts false depth
    else if t.type = TokenType.OPERATOR then
      !expectAtom && isBinOpTok t && wfAux ts true depth
    else if t.type = TokenType.PARENTHESIS ∧ t.value = "(" then
      expectAtom && wfAux ts true (depth + 1)
    else if t.type = TokenType.PARENTHESIS ∧ t.value = ")" then
      !expectAtom && decide (0 < depth) && wfAux ts false (depth - 1)
    else false

def wellFormedInfix (ts : List Token) : Bool := wfAux ts true 0

/-- Number of OPERATOR-type tokens in a list. -/
def countOpTok (l : List Token) : Nat :=
  l.countP (fun t => decide (t.type = TokenType.OPERATOR))

/-- Number of PARENTHESIS-type tokens in a list. -/
def parenCount (l : List Token) : Nat :=
  l.countP (fun t => decide (t.type = TokenType.PARENTHESIS))

/-- Every entry the reducer ever pushes on the operator stack is either an
operator token (whose text is not `"("`) or an open-parenthesis token. -/
def GoodStack (l : List Token) : Prop :=
  ∀ t ∈ l, (t.type = TokenType.OPERATOR ∧ t.value ≠ "(") ∨
    (t.type = TokenType.PARENTHESIS ∧ t.value = "(")

theorem isBinOpTok_spec {t : Token} (h : isBinOpTok t = true) :
    t.type = TokenType.OPERATOR ∧ t.value ≠ "(" := by
  simp only [isBinOpTok, decide_eq_true_eq] at h
  refine ⟨h.1, ?_⟩
  rcases h.2 with h | h | h | h | h | h <;> rw [h] <;> decide

theorem processOperator_two (opTok : Token) {s : RState} {a2 a1 : String} {rest : List String}
    (h : s.operands = a2 :: a1 :: rest) :
    processOperator opTok s = some (RState.mk
      (s.instructions ++ [Instruction.mk opTok.value a1 a2 ("t" ++ natRepr s.tempCount)])
      (("t" ++ natRepr s.tempCount) :: rest) (s.tempCount + 1)) := by
  simp [processOperator, h]

theorem popWhilePrec_ok (v : String) (ra : Bool) :
    ∀ ops s, GoodStack ops → s.operands.length = countOpTok ops + 1 →
      ∃ ops1 s1, popWhilePrec v ra ops s = some (ops1, s1) ∧ GoodStack ops1 ∧
        s1.operands.length = countOpTok ops1 + 1 ∧ parenCount ops1 = parenCount ops := by
  intro ops
  induction ops with
  | nil =>
    intro s hg hlen
    exact ⟨[], s, rfl, hg, hlen, rfl⟩
  | cons top rest ih =>
    intro s hg hlen
    by_cases hc : shouldPop ra top v = true
    · have htype : top.type = TokenType.OPERATOR := by
        simp only [shouldPop, decide_eq_true_eq] at hc
        exact hc.1
      have hcount : countOpTok (top :: rest) = countOpTok rest + 1 := by
        simp [countOpTok, List.countP_cons, htype]
      rw [hcount] at hlen
      rcases hs : s.operands with _ | ⟨a2, _ | ⟨a1, lrest⟩⟩
      · rw [hs] at hlen; simp at hlen
      · rw [hs] at hlen; simp at hlen
      · have hstep := processOperator_two top hs
        have hlen1 : (RState.mk
            (s.instructions ++ [Instruction.mk top.value a1 a2 ("t" ++ natRepr s.tempCount)])
            (("t" ++ natRepr s.tempCount) :: lrest) (s.tempCount + 1)).operands.length =
            countOpTok rest + 1 := by
          rw [hs] at hlen
          simp only [List.length_cons] at hlen ⊢
          omega
        obtain ⟨ops1, s1, hrun, hg1, hl1, hp1⟩ :=
          ih _ (fun t ht => hg t (List.mem_cons_of_mem _ ht)) hlen1
        refine ⟨ops1, s1, ?_, hg1, hl1, ?_⟩
        · simp only [popWhilePrec]
          rw [if_pos hc, hstep]
          exact hrun
        · rw [hp1]
          simp [parenCount, List.countP_cons, htype]
    · refine ⟨top :: rest, s, ?_, hg, hlen, rfl⟩
      simp only [popWhilePrec]
      rw [if_neg hc]

theorem popUntilOpen_ok :
    ∀ ops s, GoodStack ops → s.operands.length = countOpTok ops + 1 → 0 < parenCount ops →
      ∃ pt rest1 s1, popUntilOpen ops s = some (pt :: rest1, s1) ∧
        pt.type = TokenType.PARENTHESIS ∧ pt.value = "(" ∧ GoodStack rest1 ∧
        s1.operands.length = countOpTok rest1 + 1 ∧
        parenCount rest1 + 1 = parenCount ops := by
  intro ops
  induction ops with
  | nil =>
    intro s _ _ hp
    simp [parenCount] at hp
  | cons top rest ih =>
    intro s hg hlen hp
    by_cases hval : top.value = "("
    · have htop : top.type = TokenType.PARENTHESIS := by
        rcases hg top (by simp) with ⟨_, hne⟩ | ⟨ht, _⟩
        · exact absurd hval hne
        · exact ht
      have hcount : countOpTok (top :: rest) = countOpTok rest := by
        simp [countOpTok, List.countP_cons, htop]
      refine ⟨top, rest, s, ?_, htop, hval, fun t ht => hg t (List.mem_cons_of_mem _ ht), ?_, ?_⟩
      · simp only [popUntilOpen]
        rw [if_pos hval]
      · rw [hcount] at hlen
        exact hlen
      · simp [parenCount, List.countP_cons, htop]
    · have htype : top.type = TokenType.OPERATOR := by
        rcases hg top (by simp) with ⟨ht, _⟩ | ⟨_, hv⟩
        · exact ht
        · exact absurd hv hval
      have hcount : countOpTok (top :: rest) = countOpTok rest + 1 := by
        simp [countOpTok, List.countP_cons, htype]
      rw [hcount] at hlen
      have hprest : 0 < parenCount rest := by
        have : parenCount (top :: rest) = parenCount rest := by
          simp [parenCount, List.countP_cons, htype]
        rw [this] at hp
        exact hp
      rcases hs : s.operands with _ | ⟨a2, _ | ⟨a1, lrest⟩⟩
      · rw [hs] at hlen; simp at hlen
      · rw [hs] at hlen; simp at hlen
      · have hstep := processOperator_two top hs
        have hlen1 : (RState.mk
            (s.instructions ++ [Instruction.mk top.value a1 a2 ("t" ++ natRepr s.tempCount)])
            (("t" ++ natRepr s.tempCount) :: lrest) (s.tempCount + 1)).operands.length =
            countOpTok rest + 1 := by
          rw [hs] at hlen
          simp only [List.length_cons] at hlen ⊢
          omega
        obtain ⟨pt, rest1, s1, hrun, hpt, hpv, hg1, hl1, hp1⟩ :=
          ih _ (fun t ht => hg t (List.mem_cons_of_mem _ ht)) hlen1 hprest
        refine ⟨pt, rest1, s1, ?_, hpt, hpv, hg1, hl1, ?_⟩
        · simp only [popUntilOpen]
          rw [if_neg hval, hstep]
          exact hrun
        · rw [hp1]
          simp [parenCount, List.countP_cons, htype]

theorem popAll_ok :
    ∀ ops s, s.operands.length = ops.length + 1 →
      ∃ s1, popAll ops s = some s1 ∧ s1.operands.length = 1 := by
  intro ops
  induction ops with
  | nil =>
    intro s hlen
    exact ⟨s, rfl, hlen⟩
  | cons top rest ih =>
    intro s hlen
    rcases hs : s.operands with _ | ⟨a2, _ | ⟨a1, lrest⟩⟩
    · rw [hs] at hlen; simp at hlen
    · rw [hs] at hlen; simp at hlen
    · have hstep := processOperator_two top hs
      have hlen1 : (RState.mk
          (s.instructions ++ [Instruction.mk top.value a1 a2 ("t" ++ natRepr s.tempCount)])
          (("t" ++ natRepr s.tempCount) :: lrest) (s.tempCount + 1)).operands.length =
          rest.length + 1 := by
        rw [hs] at hlen
        simp only [List.length_cons] at hlen ⊢
        omega
      obtain ⟨s1, hrun, hl⟩ := ih _ hlen1
      refine ⟨s1, ?_, hl⟩
      simp only [popAll]
      rw [hstep]
      exact hrun

theorem goodStack_no_paren :
    ∀ ops : List Token, GoodStack ops → parenCount ops = 0 →
      countOpTok ops = ops.length := by
  intro ops
  induction ops with
  | nil => intro _ _; rfl
  | cons top rest ih =>
    intro hg hp
    rcases hg top (by simp) with ⟨ht, _⟩ | ⟨ht, _⟩
    · have hskip : parenCount (top :: rest) = parenCount rest := by
        simp [parenCount, List.countP_cons, ht]
      have hprest : parenCount rest = 0 := by omega
      have hrest := ih (fun t htm => hg t (List.mem_cons_of_mem _ htm)) hprest
      have hstep : countOpTok (top :: rest) = countOpTok rest + 1 := by
        simp [countOpTok, List.countP_cons, ht]
      rw [hstep, hrest]
      simp
    · exfalso
      have hstep : parenCount (top :: rest) = parenCount rest + 1 := by
        simp [parenCount, List.countP_cons, ht]
      omega

/-- Main no-underflow induction: running the token loop on a well-formed
suffix from a good stack whose shape matches the automaton state always
succeeds and re-establishes the invariant. -/
theorem runTokens_ok :
    ∀ ts (ea : Bool) (depth : Nat) ops s,
      wfAux ts ea depth = true →
      GoodStack ops → parenCount ops = depth →
      s.operands.length = countOpTok ops + cond ea 0 1 →
      ∃ ops1 s1, runTokens ts ops s = some (ops1, s1) ∧ GoodStack ops1 ∧
        parenCount ops1 = 0 ∧ s1.operands.length = countOpTok ops1 + 1 := by
  intro ts
  induction ts with
  | nil =>
    intro ea depth ops s hwf hg hp hlen
    simp only [wfAux, Bool.and_eq_true, Bool.not_eq_true', decide_eq_true_eq] at hwf
    obtain ⟨hea, hd⟩ := hwf
    rw [hea] at hlen
    refine ⟨ops, s, rfl, hg, by rw [hp, hd], by simpa using hlen⟩
  | cons t ts ih =>
    intro ea depth ops s hwf hg hp hlen
    simp only [wfAux] at hwf
    by_cases h1 : t.type = TokenType.NUMBER ∨ t.type = TokenType.VARIABLE
    · rw [if_pos h1] at hwf
      simp only [Bool.and_eq_true] at hwf
      obtain ⟨hea, hwf1⟩ := hwf
      rw [hea] at hlen
      simp only [Bool.cond_true, Nat.add_zero] at hlen
      have hlen1 : (RState.mk s.instructions (t.value :: s.operands) s.tempCount).operands.length =
          countOpTok ops + cond false 0 1 := by
        show (t.value :: s.operands).length = countOpTok ops + 1
        simp only [List.length_cons]
        omega
      obtain ⟨ops1, s1, hrun, hrest⟩ := ih false depth ops _ hwf1 hg hp hlen1
      refine ⟨ops1, s1, ?_, hrest⟩
      simp only [runTokens]
      rw [if_pos h1]
      exact hrun
    · rw [if_neg h1] at hwf
      by_cases h2 : t.type = TokenType.OPERATOR
      · rw [if_pos h2] at hwf
        simp only [Bool.and_eq_true, Bool.not_eq_true'] at hwf
        obtain ⟨⟨hea, hbin⟩, hwf1⟩ := hwf
        rw [hea] at hlen
        simp only [Bool.cond_false] at hlen
        obtain ⟨ops1, s1, hpop, hg1, hlen1, hpc1⟩ :=
          popWhilePrec_ok t.value (t.value == "^") ops s hg hlen
        have hgood2 : GoodStack (t :: ops1) := by
          intro u hu
          rcases List.mem_cons.mp hu with rfl | hu
          · exact Or.inl (isBinOpTok_spec hbin)
          · exact hg1 u hu
        have hp2 : parenCount (t :: ops1) = depth := by
          have hstep : parenCount (t :: ops1) = parenCount ops1 := by
            simp [parenCount, List.countP_cons, h2]
          omega
        have hlen2 : s1.operands.length = countOpTok (t :: ops1) + cond true 0 1 := by
          have hstep : countOpTok (t :: ops1) = countOpTok ops1 + 1 := by
            simp [countOpTok, List.countP_cons, h2]
          rw [hstep]
          simp only [Bool.cond_true]
          omega
        obtain ⟨ops2, s2, hrun, hrest⟩ := ih true depth (t :: ops1) s1 hwf1 hgood2 hp2 hlen2
        refine ⟨ops2, s2, ?_, hrest⟩
        simp only [runTokens]
        rw [if_neg h1, if_pos h2, hpop]
        exact hrun
      · rw [if_neg h2] at hwf
        by_cases h3 : t.type = TokenType.PARENTHESIS ∧ t.value = "("
        · rw [if_pos h3] at hwf
          simp only [Bool.and_eq_true] at hwf
          obtain ⟨hea, hwf1⟩ := hwf
          rw [hea] at hlen
          simp only [Bool.cond_true, Nat.add_zero] at hlen
          have hgood2 : GoodStack (t :: ops) := by
            intro u hu
            rcases List.mem_cons.mp hu with rfl | hu
            · exact Or.inr h3
            · exact hg u hu
          have hp2 : parenCount (t :: ops) = depth + 1 := by
            have hstep : parenCount (t :: ops) = parenCount ops + 1 := by
              simp [parenCount, List.countP_cons, h3.1]
            omega
          have hlen2 : s.operands.length = countOpTok (t :: ops) + cond true 0 1 := by
            have hstep : countOpTok (t :: ops) = countOpTok ops := by
              simp [countOpTok, List.countP_cons, h3.1]
            rw [hstep]
            simp only [Bool.cond_true]
            omega
          obtain ⟨ops2, s2, hrun, hrest⟩ := ih true (depth + 1) (t :: ops) s hwf1 hgood2 hp2 hlen2
          refine ⟨ops2, s2, ?_, hrest⟩
          simp only [runTokens]
          rw [if_neg h1, if_neg h2, if_pos h3.2]
          exact hrun
        · rw [if_neg h3] at hwf
          by_cases h4 : t.type = TokenType.PARENTHESIS ∧ t.value = ")"
          · rw [if_pos h4] at hwf
            simp only [Bool.and_eq_true, Bool.not_eq_true', decide_eq_true_eq] at hwf
            obtain ⟨⟨hea, hdpos⟩, hwf1⟩ := hwf
            rw [hea] at hlen
            simp only [Bool.cond_false] at hlen
            have hppos : 0 < parenCount ops := by rw [hp]; exact hdpos
            obtain ⟨pt, rest1, s1, hpop, hpt, hpv, hg1, hlen1, hpc⟩ :=
              popUntilOpen_ok ops s hg hlen hppos
            have hlen2 : s1.operands.length = countOpTok rest1 + cond false 0 1 := by
              simp only [Bool.cond_false]
              exact hlen1
            have hp2 : parenCount rest1 = depth - 1 := by omega
            obtain ⟨ops2, s2, hrun, hrest⟩ := ih false (depth - 1) rest1 s1 hwf1 hg1 hp2 hlen2
            refine ⟨ops2, s2, ?_, hrest⟩
            have hnopen : ¬ t.value = "(" := by
              rw [h4.2]
              decide
            simp only [runTokens]
            rw [if_neg h1, if_neg h2, if_neg hnopen, if_pos h4.2, hpop]
            exact hrun
          · rw [if_neg h4] at hwf
            exact absurd hwf (by simp)

/--
C2: the pop-and-reduce step pops two operands with no underflow check.  For
every input whose token sequence forms a well-formed infix expression the
whole pipeline completes (`isSome`) — i.e. the operand stack holds at least
two entries whenever pop-and-reduce fires, since in this embedding a
pop-and-reduce reached with fewer than two operands is exactly what produces
`none`.  And for the malformed input `"+ a"` (a lone operator followed by one
operand) pop-and-reduce is invoked with fewer than two operands available and
the run aborts with `none`, the unchecked precondition violation.
-/
theorem c2_underflow :
    (∀ e r, wellFormedInfix (tokenize e.data) = true →
      (processExpression e r).isSome = true) ∧
    processExpression "+ a" "x" = none := by
  constructor
  · intro e r hwf
    obtain ⟨ops1, s1, hrun, hg1, hpc1, hlen1⟩ :=
      runTokens_ok (tokenize e.data) true 0 [] initState hwf
        (by intro t ht; simp at ht) rfl (by simp [initState, countOpTok])

    have hlen : s1.operands.length = ops1.length + 1 := by
      rw [goodStack_no_paren ops1 hg1 hpc1] at hlen1
      exact hlen1
    obtain ⟨s2, hall, hl2⟩ := popAll_ok ops1 s1 hlen
    unfold processExpression
    rw [hrun, opt_some_bind, hall, opt_map_some]
    rfl
  · decide

/-- Witness for `c2_underflow` on the well-formed input `"a + b"`. -/
theorem c2_underflow_witness :
    wellFormedInfix (tokenize "a + b".data) = true ∧
    (processExpression "a + b" "x").isSome = true :=
  ⟨by decide, c2_underflow.1 "a + b" "x" (by decide)⟩

/-! Fully-parenthesized expressions and the instruction count. -/

theorem runTokens_atom {t : Token}
    (h : t.type = TokenType.NUMBER ∨ t.type = TokenType.VARIABLE)
    (ts ops : List Token) (s : RState) :
    runTokens (t :: ts) ops s =
      runTokens ts ops (RState.mk s.instructions (t.value :: s.operands) s.tempCount) := by
  simp only [runTokens]
  rw [if_pos h]

theorem runTokens_operator {t : Token} (h : t.type = TokenType.OPERATOR)
    (ts ops : List Token) (s : RState) :
    runTokens (t :: ts) ops s =
      match popWhilePrec t.value (t.value == "^") ops s with
      | some p => runTokens ts (t :: p.1) p.2
      | none => none := by
  have hno : ¬(t.type = TokenType.NUMBER ∨ t.type = TokenType.VARIABLE) := by
    rintro (hx | hx) <;> rw [h] at hx <;> exact TokenType.noConfusion hx
  simp only [runTokens]
  rw [if_neg hno, if_pos h]

theorem runTokens_openTok (ts ops : List Token) (s : RState) :
    runTokens (Token.mk TokenType.PARENTHESIS "(" :: ts) ops s =
      runTokens ts (Token.mk TokenType.PARENTHESIS "(" :: ops) s := by
  simp [runTokens]

theorem runTokens_closeTok (ts ops : List Token) (s : RState) :
    runTokens (Token.mk TokenType.PARENTHESIS ")" :: ts) ops s =
      match popUntilOpen ops s with
      | some p => runTokens ts p.1.tail p.2
      | none => none := by
  simp [runTokens]

theorem runTokens_append (xs ys : List Token) :
    ∀ ops s, runTokens (xs ++ ys) ops s =
      (runTokens xs ops s).bind (fun p => runTokens ys p.1 p.2) := by
  induction xs with
  | nil => intro ops s; rfl
  | cons t xs ih =>
    intro ops s
    simp only [List.cons_append]
    by_cases h1 : t.type = TokenType.NUMBER ∨ t.type = TokenType.VARIABLE
    · rw [runTokens_atom h1, runTokens_atom h1, ih]
    · by_cases h2 : t.type = TokenType.OPERATOR
      · rw [runTokens_operator h2, runTokens_operator h2]
        cases hp : popWhilePrec t.value (t.value == "^") ops s with
        | none => rfl
        | some p => exact ih _ _
      · have hno : ¬(t.type = TokenType.NUMBER ∨ t.type = TokenType.VARIABLE) := h1
        by_cases h3 : t.value = "("
        · simp only [runTokens]
          rw [if_neg hno, if_neg hno, if_neg h2, if_neg h2, if_pos h3, if_pos h3, ih]
        · by_cases h4 : t.value = ")"
          · simp only [runTokens]
            rw [if_neg hno, if_neg hno, if_neg h2, if_neg h2, if_neg h3, if_neg h3,
              if_pos h4, if_pos h4]
            cases hp : popUntilOpen ops s with
            | none => rfl
            | some p => exact ih _ _
          · simp only [runTokens]
            rw [if_neg hno, if_neg hno, if_neg h2, if_neg h2, if_neg h3, if_neg h3,
              if_neg h4, if_neg h4, ih]

theorem popWhilePrec_stop {ra : Bool} {top : Token} {v : String}
    (h : shouldPop ra top v = false) (rest : List Token) (s : RState) :
    popWhilePrec v ra (top :: rest) s = some (top :: rest, s) := by
  simp only [popWhilePrec]
  rw [if_neg (by rw [h]; exact Bool.false_ne_true)]

theorem popUntilOpen_node {opTok : Token} (hne : ¬ opTok.value = "(") {sr : RState}
    {a2 a1 : String} {rest0 : List String} (hops : sr.operands = a2 :: a1 :: rest0)
    (ops : List Token) :
    popUntilOpen (opTok :: Token.mk TokenType.PARENTHESIS "(" :: ops) sr =
      some (Token.mk TokenType.PARENTHESIS "(" :: ops,
        RState.mk
          (sr.instructions ++ [Instruction.mk opTok.value a1 a2 ("t" ++ natRepr sr.tempCount)])
          (("t" ++ natRepr sr.tempCount) :: rest0) (sr.tempCount + 1)) := by
  simp only [popUntilOpen]
  rw [if_neg hne, processOperator_two opTok hops]
  simp [popUntilOpen]

/-- Fully-parenthesized expressions: an atom, or `( left op right )` with a
binary operator token in the middle. -/
inductive FullParen : List Token → Prop where
  | num (v : String) : FullParen [Token.mk TokenType.NUMBER v]
  | var (v : String) : FullParen [Token.mk TokenType.VARIABLE v]
  | node (l r : List Token) (opTok : Token) (hl : FullParen l) (hr : FullParen r)
      (hop : isBinOpTok opTok = true) :
      FullParen ([Token.mk TokenType.PARENTHESIS "("] ++ l ++ [opTok] ++ r ++
        [Token.mk TokenType.PARENTHESIS ")"])

/-- Running the token loop over a fully-parenthesized expression, from any
stacks, restores the operator stack, pushes one computed operand, and emits
exactly one instruction per operator token. -/
theorem fullParen_run {ts : List Token} (hfp : FullParen ts) :
    ∀ ops s, ∃ v extra,
      runTokens ts ops s = some (ops, RState.mk (s.instructions ++ extra)
        (v :: s.operands) (s.tempCount + extra.length)) ∧
      extra.length = countOpTok ts := by
  induction hfp with
  | num v =>
    intro ops s
    refine ⟨v, [], ?_, by simp [countOpTok]⟩
    rw [runTokens_atom (Or.inl rfl)]
    simp only [runTokens]
    simp
  | var v =>
    intro ops s
    refine ⟨v, [], ?_, by simp [countOpTok]⟩
    rw [runTokens_atom (Or.inr rfl)]
    simp only [runTokens]
    simp
  | node l r opTok hl hr hop ihl ihr =>
    intro ops s
    obtain ⟨htype, hne⟩ := isBinOpTok_spec hop
    obtain ⟨vl, el, hrunl, hcl⟩ := ihl (Token.mk TokenType.PARENTHESIS "(" :: ops) s
    obtain ⟨vr, er, hrunr, hcr⟩ := ihr
      (opTok :: Token.mk TokenType.PARENTHESIS "(" :: ops)
      (RState.mk (s.instructions ++ el) (vl :: s.operands) (s.tempCount + el.length))
    have hstop : shouldPop (opTok.value == "^") (Token.mk TokenType.PARENTHESIS "(")
        opTok.value = false := by
      simp [shouldPop]
    have hchain : runTokens
        ([Token.mk TokenType.PARENTHESIS "("] ++ l ++ [opTok] ++ r ++
          [Token.mk TokenType.PARENTHESIS ")"]) ops s =
        some (ops, RState.mk
          (s.instructions ++ el ++ er ++
            [Instruction.mk opTok.value vl vr
              ("t" ++ natRepr (s.tempCount + el.length + er.length))])
          (("t" ++ natRepr (s.tempCount + el.length + er.length)) :: s.operands)
          (s.tempCount + el.length + er.length + 1)) := by
      have hsplit : ([Token.mk TokenType.PARENTHESIS "("] ++ l ++ [opTok] ++ r ++
          [Token.mk TokenType.PARENTHESIS ")"]) =
          Token.mk TokenType.PARENTHESIS "(" ::
            (l ++ (opTok :: (r ++ [Token.mk TokenType.PARENTHESIS ")"]))) := by
        simp
      rw [hsplit, runTokens_openTok, runTokens_append, hrunl, opt_some_bind]
      show runTokens (opTok :: (r ++ [Token.mk TokenType.PARENTHESIS ")"]))
        (Token.mk TokenType.PARENTHESIS "(" :: ops)
        (RState.mk (s.instructions ++ el) (vl :: s.operands) (s.tempCount + el.length)) = _
      rw [runTokens_operator htype, popWhilePrec_stop hstop]
      show runTokens (r ++ [Token.mk TokenType.PARENTHESIS ")"])
        (opTok :: Token.mk TokenType.PARENTHESIS "(" :: ops)
        (RState.mk (s.instructions ++ el) (vl :: s.operands) (s.tempCount + el.length)) = _
      rw [runTokens_append, hrunr, opt_some_bind]
      show runTokens [Token.mk TokenType.PARENTHESIS ")"]
        (opTok :: Token.mk TokenType.PARENTHESIS "(" :: ops)
        (RState.mk (s.instructions ++ el ++ er) (vr :: vl :: s.operands)
          (s.tempCount + el.length + er.length)) = _
      rw [runTokens_closeTok, popUntilOpen_node hne rfl]
      rfl
    refine ⟨"t" ++ natRepr (s.tempCount + el.length + er.length),
      el ++ er ++ [Instruction.mk opTok.value vl vr
        ("t" ++ natRepr (s.tempCount + el.length + er.length))], ?_, ?_⟩
    · rw [hchain]
      have h1 : s.instructions ++ el ++ er ++
          [Instruction.mk opTok.value vl vr
            ("t" ++ natRepr (s.tempCount + el.length + er.length))] =
          s.instructions ++ (el ++ er ++
          [Instruction.mk opTok.value vl vr
            ("t" ++ natRepr (s.tempCount + el.length + er.length))]) := by
        simp [List.append_assoc]
      have h2 : s.tempCount + el.length + er.length + 1 =
          s.tempCount + (el ++ er ++
          [Instruction.mk opTok.value vl vr
            ("t" ++ natRepr (s.tempCount + el.length + er.length))]).length := by
        simp only [List.length_append, List.length_cons, List.length_nil]
        omega
      rw [h1, h2]
    · simp only [List.length_append, List.length_cons, List.length_nil]
      have hcount : countOpTok ([Token.mk TokenType.PARENTHESIS "("] ++ l ++ [opTok] ++ r ++
          [Token.mk TokenType.PARENTHESIS ")"]) = countOpTok l + countOpTok r + 1 := by
        simp [countOpTok, List.countP_append, List.countP_cons, htype]
        try omega
      rw [hcount]
      omega

/--
C6: for every input whose token sequence is a valid fully-parenthesized
expression, the number of instructions emitted, excluding the final `=`
assignment, equals the number of binary operator occurrences in the
expression (and the final instruction is that `=` assignment).
-/
theorem c6_fully_paren_count (e r : String) (h : FullParen (tokenize e.data)) :
    (processExpression e r).map (fun l => l.dropLast.length) =
      some (countOpTok (tokenize e.data)) ∧
    (processExpression e r).map (fun l => l.getLast?.map Instruction.op) =
      some (some "=") := by
  obtain ⟨v, extra, hrun, hcnt⟩ := fullParen_run h [] initState
  have hpe : processExpression e r = some (extra ++ [Instruction.mk "=" v "" r]) := by
    unfold processExpression
    rw [hrun, opt_some_bind]
    show (popAll [] (RState.mk (initState.instructions ++ extra) (v :: initState.operands)
        (initState.tempCount + extra.length))).map (finalAssign r) = _
    rw [show popAll [] (RState.mk (initState.instructions ++ extra) (v :: initState.operands)
        (initState.tempCount + extra.length)) =
        some (RState.mk (initState.instructions ++ extra) (v :: initState.operands)
          (initState.tempCount + extra.length)) from rfl, opt_map_some]
    rfl
  rw [hpe]
  constructor
  · simp only [opt_map_some, List.dropLast_concat, Option.some.injEq]
    exact hcnt
  · simp only [opt_map_some, List.getLast?_concat, Option.some.injEq]

/-- Witness for `c6_fully_paren_count` on the input `"( a + b )"`. -/
theorem c6_fully_paren_count_witness :
    (processExpression "( a + b )" "x").map (fun l => l.dropLast.length) =
      some (countOpTok (tokenize "( a + b )".data)) ∧
    (processExpression "( a + b )" "x").map (fun l => l.getLast?.map Instruction.op) =
      some (some "=") :=
  c6_fully_paren_count "( a + b )" "x" (by
    show FullParen [Token.mk TokenType.PARENTHESIS "(", Token.mk TokenType.VARIABLE "a",
      Token.mk TokenType.OPERATOR "+", Token.mk TokenType.VARIABLE "b",
      Token.mk TokenType.PARENTHESIS ")"]
    exact FullParen.node [Token.mk TokenType.VARIABLE "a"] [Token.mk TokenType.VARIABLE "b"]
      (Token.mk TokenType.OPERATOR "+") (FullParen.var "a") (FullParen.var "b") (by decide))

/--
C4: running the pipeline on `"a + b * c"` with result variable `"x"` yields
exactly `t1 = b * c`, `t2 = a + t1`, `x = t2`, with quadruple renderings
`(*, b, c, t1)`, `(+, a, t1, t2)`, `(=, t2,  , x)` (assignment `arg2` blank).
-/
theorem c4_end_to_end :
    processExpression "a + b * c" "x" =
      some [Instruction.mk "*" "b" "c" "t1", Instruction.mk "+" "a" "t1" "t2",
        Instruction.mk "=" "t2" "" "x"] ∧
    ((processExpression "a + b * c" "x").getD []).map Instruction.toString =
      ["t1 = b * c", "t2 = a + t1", "x = t2"] ∧
    ((processExpression "a + b * c" "x").getD []).map Instruction.toQuadruple =
      ["(*, b, c, t1)", "(+, a, t1, t2)", "(=, t2,  , x)"] := by
  exact ⟨by decide, by decide, by decide⟩

/--
C5: `^` is reduced right-associatively: `"a ^ b ^ c"` produces `t1 = b ^ c`
then `t2 = a ^ t1`; the right-associative stack test uses strict `>` on the
top-of-stack precedence (so an equal-precedence `^` on the stack does not
reduce early), while left-associative operators use `≥` (so an
equal-precedence left-associative operator does reduce).
-/
theorem c5_right_assoc :
    processExpression "a ^ b ^ c" "x" =
      some [Instruction.mk "^" "b" "c" "t1", Instruction.mk "^" "a" "t1" "t2",
        Instruction.mk "=" "t2" "" "x"] ∧
    shouldPop true (Token.mk TokenType.OPERATOR "^") "^" = false ∧
    shouldPop false (Token.mk TokenType.OPERATOR "+") "+" = true := by
  exact ⟨by decide, by decide, by decide⟩

/--
C8: the empty input expression produces zero instructions — no reduction
instructions and no final assignment — for every result-variable name.
-/
theorem c8_empty_input (r : String) : processExpression "" r = some [] := rfl

/--
C9: the reducer and the view derivations are pure functions: running
`processExpression` twice on the same expression and result variable gives the
same instruction sequence, and deriving the TAC/quadruple/triple/indirect-triple
(pointer table) views twice from the same instruction sequence gives the same
rows both times.
-/
theorem c9_deterministic (e r : String) (instructions : List Instruction) :
    processExpression e r = processExpression e r ∧
    tacLines instructions = tacLines instructions ∧
    quadrupleLines instructions = quadrupleLines instructions ∧
    tripleLines instructions = tripleLines instructions ∧
    pointerTableLines instructions = pointerTableLines instructions :=
  ⟨rfl, rfl, rfl, rfl, rfl⟩
